import Mathlib

/-!
Shallow embedding of the fact-checking Discord bot (src/bot.py, src/agent.py).
Python strings are modelled as `List Char`; Python dicts keyed by message ids
as association lists; the external world (Discord gateway, Mistral LLM API,
Selenium browser) as explicit outcome parameters.  Machine clock values
(`time.time()`) are modelled as integers.
-/

set_option maxRecDepth 4000

namespace Sherlock

/-! ### Python string primitives used by the source -/

/-- The ASCII whitespace class: the characters matched both by the regex
class used in `clean_for_search` and by the separator-free `str.split()`.
(Python also treats some further Unicode codepoints as whitespace in both
places; since the two call sites use the same class, restricting the model
to the ASCII subset does not change any of the properties proved below.) -/
def pyWs (c : Char) : Bool :=
  c == ' ' || c == '\t' || c == '\n' || c == '\r' || c == '\x0b' || c == '\x0c'

/-- Worker for `pySplitWs`: `acc` is the word accumulated so far. -/
def pySplitWsAux (acc : List Char) : List Char → List (List Char)
  | [] => if acc = [] then [] else [acc]
  | c :: t =>
    if pyWs c then
      if acc = [] then pySplitWsAux [] t else acc :: pySplitWsAux [] t
    else pySplitWsAux (acc ++ [c]) t

/-- Python `s.split()` (no separator argument): split on runs of whitespace,
discarding empty pieces. -/
def pySplitWs (l : List Char) : List (List Char) :=
  pySplitWsAux [] l

/-- Python `" ".join(ws)`: interleave a single space between the pieces. -/
def joinSp : List (List Char) → List Char
  | [] => []
  | [w] => w
  | w :: ws => w ++ ' ' :: joinSp ws

/-- Python `sep in s` for a substring pattern: `pat` occurs contiguously in `l`. -/
def containsSeq (pat : List Char) : List Char → Bool
  | [] => pat.isPrefixOf []
  | l@(_ :: t) => pat.isPrefixOf l || containsSeq pat t

/-- Python `s.strip()`: drop leading and trailing whitespace. -/
def pyStrip (l : List Char) : List Char :=
  ((l.dropWhile pyWs).reverse.dropWhile pyWs).reverse

/-- Python `s.split(sep)` for a single-character separator: keeps empty pieces. -/
def pySplitChar (sep : Char) : List Char → List (List Char)
  | [] => [[]]
  | c :: t =>
    if c == sep then [] :: pySplitChar sep t
    else
      match pySplitChar sep t with
      | [] => [[c]]
      | w :: ws => (c :: w) :: ws

/-- Python `s.split(". ")`, the sentence splitter in `split_into_chunks`
(leftmost, non-overlapping occurrences of the two-character separator). -/
def splitOnDotSpace : List Char → List (List Char)
  | '.' :: ' ' :: t => [] :: splitOnDotSpace t
  | c :: t =>
    match splitOnDotSpace t with
    | [] => [[c]]
    | w :: ws => (c :: w) :: ws
  | [] => [[]]

/-- Python `s.split("Rating:")` used by `create_fact_check_embed`
(leftmost, non-overlapping occurrences of the seven-character tag). -/
def splitOnRatingTag : List Char → List (List Char)
  | 'R' :: 'a' :: 't' :: 'i' :: 'n' :: 'g' :: ':' :: t => [] :: splitOnRatingTag t
  | c :: t =>
    match splitOnRatingTag t with
    | [] => [[c]]
    | w :: ws => (c :: w) :: ws
  | [] => [[]]

/-- Python `s.lower()` (the strings compared in the source are ASCII). -/
def lowerL (l : List Char) : List Char :=
  l.map Char.toLower

/-! ### agent.py: module-level text helpers -/

/-- The character class kept by the regex substitution in `clean_for_search`:
ASCII letters, digits, whitespace and the apostrophe; every other character
is replaced by a space. -/
def keepChar (c : Char) : Bool :=
  c.isAlpha || c.isDigit || pyWs c || c == '\''

/-- Characters that can appear inside a word of the cleaned output. -/
def wordChar (c : Char) : Bool :=
  c.isAlpha || c.isDigit || c == '\''

/-- agent.py `FactCheckAgent.clean_for_search`: replace every character
outside the kept class by a space, then normalise whitespace with
`" ".join(text.split())`. -/
def clean_for_search (text : List Char) : List Char :=
  let cleaned := text.map (fun c => if keepChar c then c else ' ')
  joinSp (pySplitWs cleaned)

/-- agent.py `truncate_text`: keep the text if it fits, otherwise cut to
`max_length - 3` characters and add an ellipsis. -/
def truncate_text (text : List Char) (max_length : Nat) : List Char :=
  if text.length ≤ max_length then text
  else text.take (max_length - 3) ++ "...".data

/-- Loop state of `split_into_chunks`: the chunks emitted so far and the
chunk currently being accumulated. -/
structure ChunkSt where
  chunks : List (List Char)
  current : List Char
deriving DecidableEq, Repr

/-- agent.py `split_into_chunks`, inner word loop body (executed when a
single sentence is longer than `chunk_size`). -/
def wordStep (chunk_size : Nat) (st : ChunkSt) (word : List Char) : ChunkSt :=
  if st.current.length + word.length + 1 ≤ chunk_size then
    if st.current = [] then { st with current := word }
    else { st with current := st.current ++ ' ' :: word }
  else
    { chunks := st.chunks ++ [st.current], current := word }

/-- agent.py `split_into_chunks`, outer sentence loop body. -/
def sentenceStep (chunk_size : Nat) (st : ChunkSt) (sentence : List Char) : ChunkSt :=
  if st.current.length + sentence.length + 2 ≤ chunk_size then
    if st.current = [] then { st with current := sentence }
    else { st with current := st.current ++ '.' :: ' ' :: sentence }
  else
    if st.current ≠ [] then
      { chunks := st.chunks ++ [st.current ++ ['.']], current := sentence }
    else
      if chunk_size < sentence.length then
        let st1 := (pySplitWs sentence).foldl (wordStep chunk_size)
          { chunks := st.chunks, current := [] }
        if st1.current ≠ [] then { chunks := st1.chunks ++ [st1.current], current := [] }
        else { chunks := st1.chunks, current := [] }
      else { st with current := sentence }

/-- agent.py `split_into_chunks`: return the text whole when it fits,
otherwise fold the sentence loop over the `". "`-separated pieces and
flush the final partial chunk. -/
def split_into_chunks (text : List Char) (chunk_size : Nat) : List (List Char) :=
  if text.length ≤ chunk_size then [text]
  else
    let fin := (splitOnDotSpace text).foldl (sentenceStep chunk_size) ⟨[], []⟩
    if fin.current ≠ [] then fin.chunks ++ [fin.current] else fin.chunks

end Sherlock

namespace Sherlock

/-! ### agent.py: rating extraction and embed construction -/

/-- Discord embed colours used by `create_fact_check_embed`. -/
inductive ECol
  | red
  | green
  | gold
  | lightGray
deriving DecidableEq, Repr

/-- agent.py `create_fact_check_embed`, rating determination: when the text
contains a `Rating:` tag, inspect the first line of the text between the
first and second occurrence of the tag; otherwise fall back to searching the
whole text.  The default is `Unverifiable` with the light-gray colour. -/
def ratingAndColor (raw : List Char) : List Char × ECol :=
  if containsSeq "Rating:".data raw then
    let line := (pySplitChar '\n' ((splitOnRatingTag raw).getD 1 [])).headD []
    if containsSeq "False".data line then ("False".data, .red)
    else if containsSeq "True".data line && !containsSeq "Partially True".data line then
      ("True".data, .green)
    else if containsSeq "Partially True".data line then ("Partially True".data, .gold)
    else ("Unverifiable".data, .lightGray)
  else if containsSeq "False".data raw then ("False".data, .red)
  else if containsSeq "True".data raw && !containsSeq "Partially True".data raw then
    ("True".data, .green)
  else if containsSeq "Partially True".data raw then ("Partially True".data, .gold)
  else ("Unverifiable".data, .lightGray)

/-- agent.py `create_fact_check_embed`, emoji chain: the emoji attached to
the rating field, chosen by the rating string (default question mark). -/
def emojiFor (rating : List Char) : List Char :=
  if rating = "False".data then "❌".data
  else if rating = "True".data then "✅".data
  else if rating = "Partially True".data then "⚠️".data
  else "❓".data

/-- The section names of the parse dictionary in `create_fact_check_embed`,
in insertion order. -/
def SECTION_NAMES : List (List Char) :=
  ["Core factual assertions".data, "Evaluation of each assertion".data,
   "Research related information".data, "Explanation with evidence".data,
   "Sources".data]

/-- State of the section-parsing loop: the current section (if any) and the
accumulated content of each section. -/
structure PState where
  current : Option (List Char)
  sections : List (List Char × List Char)
deriving DecidableEq, Repr

/-- The parse dictionary before the loop: every section name maps to the
empty string. -/
def initSections : List (List Char × List Char) :=
  SECTION_NAMES.map (fun n => (n, []))

/-- First section name whose lower-cased form occurs in the lower-cased
line, provided the line also contains a colon (the break-on-first-match
header scan of the source). -/
def headerOf (line : List Char) : Option (List Char) :=
  SECTION_NAMES.find? (fun n =>
    containsSeq (lowerL n) (lowerL line) && containsSeq ":".data line)

/-- Whether any section name occurs (lower-cased) in the line; such lines
are never appended to a section body. -/
def mentionsAnySection (line : List Char) : Bool :=
  SECTION_NAMES.any (fun n => containsSeq (lowerL n) (lowerL line))

/-- `sections[name] += add` on the association list. -/
def updateSection (ss : List (List Char × List Char)) (name add : List Char) :
    List (List Char × List Char) :=
  ss.map (fun p => if p.1 = name then (p.1, p.2 ++ add) else p)

/-- agent.py `create_fact_check_embed`, body of the line loop: strip the
line, skip it when empty, update the current section on a header match, and
append the line (plus a newline) to the current section unless the line
mentions a section name. -/
def lineStep (st : PState) (rawLine : List Char) : PState :=
  let line := pyStrip rawLine
  if line = [] then st
  else
    let cur := match headerOf line with
      | some n => some n
      | none => st.current
    match cur with
    | some name =>
      if mentionsAnySection line then { current := cur, sections := st.sections }
      else { current := cur, sections := updateSection st.sections name (line ++ "\n".data) }
    | none => { current := none, sections := st.sections }

/-- agent.py `create_fact_check_embed`, section parse: fold the line loop
over the newline-split raw LLM response. -/
def parseSections (raw : List Char) : List (List Char × List Char) :=
  ((pySplitChar '\n' raw).foldl lineStep ⟨none, initSections⟩).sections

/-- One field of a Discord embed. -/
structure EField where
  name : List Char
  value : List Char
  inline : Bool
deriving DecidableEq, Repr

/-- The parts of a Discord embed that `create_fact_check_embed` and its
callers populate. -/
structure DEmbed where
  title : List Char
  description : List Char
  color : ECol
  fields : List EField
  footer : Option (List Char)
deriving DecidableEq, Repr

/-- `embed.add_field(name=..., value=..., inline=...)`. -/
def addField (e : DEmbed) (n v : List Char) (inl : Bool) : DEmbed :=
  { e with fields := e.fields ++ [⟨n, v, inl⟩] }

/-- Suffix used for continuation fields of a long section. -/
def CONTINUED_SUFFIX : List Char := " (continued)".data

/-- agent.py `create_fact_check_embed`, field emission for one section:
when the stripped content is nonempty, split it into chunks of size 1000
and emit one field per chunk, the first under the section name and the
rest under the continued name. -/
def sectionFieldsStep (acc : List EField) (p : List Char × List Char) : List EField :=
  if pyStrip p.2 ≠ [] then
    acc ++ ((split_into_chunks (pyStrip p.2) 1000).enum.map
      (fun ic => ⟨if ic.1 = 0 then p.1 else p.1 ++ CONTINUED_SUFFIX, ic.2, false⟩))
  else acc

/-- agent.py `create_fact_check_embed`, field emission over the sections
in insertion order. -/
def sectionFields (sections : List (List Char × List Char)) : List EField :=
  sections.foldl sectionFieldsStep []

/-- agent.py `FactCheckAgent.create_fact_check_embed`: build the result
embed from the raw LLM response and the claim. -/
def create_fact_check_embed (raw claim : List Char) : DEmbed :=
  let rc := ratingAndColor raw
  let base : DEmbed :=
    { title := "Fact Check Result".data
      description := "**Claim:** \"".data ++ truncate_text claim 4000 ++ "\"".data
      color := rc.2
      fields := []
      footer := none }
  let e1 := addField base "Rating".data (emojiFor rc.1 ++ ' ' :: rc.1) false
  let sections := parseSections raw
  let e2 := { e1 with fields := e1.fields ++ sectionFields sections }
  if containsSeq "http".data ((List.lookup "Sources".data sections).getD []) then
    { e2 with
      footer := some "Sources included - click the links above for more information".data }
  else e2

end Sherlock

namespace Sherlock

/-! ### agent.py: FactCheckAgent.fact_check and its collaborators -/

/-- External calls made during one `fact_check` run: the summarize LLM
request, the Snopes browser search, and the assessment LLM request. -/
inductive AEv
  | llmSummarize
  | browserSearch
  | llmAssess
deriving DecidableEq, Repr

/-- Outcome of the single Snopes scrape attempt: the rating-container text
when the scrape succeeds, or an exception raised inside
`search_relevant_info` (caught there), or an exception raised at the
executor call in `fact_check` (caught there). -/
inductive ScrapeOut
  | found (text : List Char)
  | raisedInner
  | raisedOuter
deriving DecidableEq, Repr

/-- Environment of one `fact_check` run: the responses (or exceptions) of
the two Mistral calls and of the browser scrape. -/
structure AgentEnv where
  summarizeOut : Except Unit (List Char)
  scrapeOut : ScrapeOut
  assessOut : Except Unit (List Char)

/-- The fixed fallback notice used whenever the scrape yields nothing. -/
def NO_SNOPES_NOTICE : List Char :=
  "No relevant Snopes fact-checks found. Using model's built-in knowledge.".data

/-- The substring whose absence from `snopes_results` makes `fact_check`
attach the Snopes reference field. -/
def SNOPES_MARKER : List Char := "No relevant Snopes fact-checks found".data

/-- agent.py `FactCheckAgent.search_relevant_info`: one browser search of
the Snopes site for `query`; returns the prefixed container text on
success and the fallback notice when any step raises (the whole body is
one try/except with no retry).  The `raisedOuter` case never reaches this
function in the source; it is given the same text for totality. -/
def search_relevant_info (query : List Char) (out : ScrapeOut) : List Char :=
  match query, out with
  | _, .found t => "Snopes fact check result: ".data ++ t
  | _, .raisedInner => NO_SNOPES_NOTICE
  | _, .raisedOuter => NO_SNOPES_NOTICE

/-- agent.py `FactCheckAgent.summarize_claim`: the stripped LLM summary,
or the original claim when the request raises. -/
def summarize_claim (out : Except Unit (List Char)) (claim : List Char) : List Char :=
  match out with
  | .ok s => pyStrip s
  | .error _ => claim

/-- The `snopes_results` local of `fact_check`: the value produced by the
executor call, with the except-branch of `fact_check` substituting the
fallback notice when the executor call itself raises. -/
def snopes_results_of (env : AgentEnv) (query : List Char) : List Char :=
  match env.scrapeOut with
  | .raisedOuter => NO_SNOPES_NOTICE
  | o => search_relevant_info query o

/-- Name of the Snopes reference field. -/
def SNOPES_FIELD_NAME : List Char := "Snopes Reference".data

/-- Value of the Snopes reference field. -/
def SNOPES_FIELD_VALUE : List Char :=
  "✓ A related fact-check was found on Snopes and incorporated into this analysis.".data

/-- agent.py `FactCheckAgent.fact_check`: summarize the claim, clean the
summary, run the single Snopes search, call the assessment LLM, build the
embed, and attach the Snopes reference field when the marker is absent
from the search result.  Returns the trace of external calls (in order)
and the produced embed, or an error when the assessment request raises. -/
def fact_check (env : AgentEnv) (claim : List Char) : List AEv × Except Unit DEmbed :=
  let summary := summarize_claim env.summarizeOut claim
  let cleaned := clean_for_search summary
  let tr1 := [AEv.llmSummarize]
  let snopes_results := snopes_results_of env cleaned
  let tr2 := tr1 ++ [AEv.browserSearch]
  let tr3 := tr2 ++ [AEv.llmAssess]
  match env.assessOut with
  | .error _ => (tr3, .error ())
  | .ok raw =>
    let embed := create_fact_check_embed raw claim
    if containsSeq SNOPES_MARKER snopes_results then (tr3, .ok embed)
    else (tr3, .ok (addField embed SNOPES_FIELD_NAME SNOPES_FIELD_VALUE false))

/-! ### bot.py: duplicate prevention -/

/-- The fields of the command context that `get_command_hash` reads. -/
structure Ctx where
  commandName : String
  messageId : Nat
  channelId : Nat
  authorId : Nat
deriving DecidableEq, Repr

/-- bot.py `get_command_hash`: the command string
`f"{name}:{message_id}:{channel_id}:{author_id}"`.  The source hashes this
string with MD5; the model keeps the pre-image itself, since MD5 is a
fixed function of it (equal inputs give equal digests) and the source
relies on it only as an identifier. -/
def get_command_hash (ctx : Ctx) : String :=
  ctx.commandName ++ ":" ++ toString ctx.messageId ++ ":" ++
    toString ctx.channelId ++ ":" ++ toString ctx.authorId

/-- bot.py `prevent_duplicate`, entry section (under `command_lock`): if
the hash is already active, reject and leave the map unchanged; otherwise
record the hash as active.  Returns whether the body will run. -/
def tryStartCommand (active : List String) (h : String) : Bool × List String :=
  if h ∈ active then (false, active) else (true, h :: active)

/-- bot.py `prevent_duplicate`, finally section (under `command_lock`):
remove the hash from the active map when present. -/
def finishCommand (active : List String) (h : String) : List String :=
  if h ∈ active then active.erase h else active

/-- What the wrapped command body does: returns a value or raises. -/
inductive BodyOutcome (α : Type)
  | ok (a : α)
  | raised
deriving DecidableEq, Repr

/-- Result of one wrapped invocation: rejected with the wait notice,
completed with the body's value, or the body's exception propagated. -/
inductive WrapOutcome (α : Type)
  | rejected
  | completed (a : α)
  | propagated
deriving DecidableEq, Repr

/-- bot.py `prevent_duplicate`, one whole invocation run to completion
while no other invocation interleaves: the entry check, the body, and the
finally-cleanup.  Returns the outcome and the final active map. -/
def prevent_duplicate_run {α : Type} (active : List String) (ctx : Ctx)
    (body : BodyOutcome α) : WrapOutcome α × List String :=
  let h := get_command_hash ctx
  let started := tryStartCommand active h
  if started.1 then
    let active2 := finishCommand started.2 h
    match body with
    | .ok a => (.completed a, active2)
    | .raised => (.propagated, active2)
  else (.rejected, active)

/-! ### bot.py: on_message and the processed-commands set -/

/-- bot.py `MAX_PROCESSED_COMMANDS`. -/
def MAX_PROCESSED_COMMANDS : Nat := 1000

/-- The fields of an incoming Discord message that `on_message` reads. -/
structure InMsg where
  authorIsBot : Bool
  content : List Char
  id : Nat
deriving DecidableEq, Repr

/-- bot.py `on_message`: ignore bot authors and non-command content,
skip already-seen command ids, otherwise record the id (clearing the
whole set when it exceeds `MAX_PROCESSED_COMMANDS`) and dispatch the
command.  Returns the new set and whether the command was dispatched. -/
def on_message_step (processed : Finset Nat) (m : InMsg) : Finset Nat × Bool :=
  if m.authorIsBot then (processed, false)
  else if !("!".data.isPrefixOf m.content) then (processed, false)
  else if m.id ∈ processed then (processed, false)
  else
    let p1 := insert m.id processed
    let p2 := if MAX_PROCESSED_COMMANDS < p1.card then (∅ : Finset Nat) else p1
    (p2, true)

/-- The processed-commands set after a sequence of incoming messages,
starting from the empty set the module initialises. -/
def processed_after (msgs : List InMsg) : Finset Nat :=
  msgs.foldl (fun s m => (on_message_step s m).1) ∅

end Sherlock

namespace Sherlock

/-! ### bot.py: the fact-check command and its result cache -/

/-- bot.py `CACHE_EXPIRY` (seconds). -/
def CACHE_EXPIRY : Int := 600

/-- The `factcheck_cache` dictionary: referenced message id to
(store time, embed). -/
abbrev Cache := List (Nat × (Int × DEmbed))

/-- Python `del cache[k]`. -/
def dictRemove (c : Cache) (k : Nat) : Cache :=
  c.filter (fun p => p.1 != k)

/-- Python `cache[k] = v`. -/
def dictSet (c : Cache) (k : Nat) (v : Int × DEmbed) : Cache :=
  (k, v) :: dictRemove c k

/-- bot.py `clean_expired_cache`: drop every entry strictly older than
`CACHE_EXPIRY`. -/
def clean_expired_cache (cache : Cache) (now : Int) : Cache :=
  cache.filter (fun p => !(CACHE_EXPIRY < now - p.2.1))

/-- Observable actions of one `factcheck_command` invocation, in order. -/
inductive BotEv
  | sendInstruction
  | sendCachedResult
  | fetchMessage (id : Nat)
  | agentFactCheck (claim : List Char)
  | sendResultEmbed
  | sendErrorMessage
deriving DecidableEq, Repr

/-- The fields of the command message that `factcheck_command` reads:
whether it is a reply, the referenced message id, and its own id. -/
structure CmdMsg where
  isReply : Bool
  refMsgId : Nat
  msgId : Nat
deriving DecidableEq, Repr

/-- The request id string `f"{ctx.message.id}-{ref_msg_id}"`. -/
def requestIdOf (msg : CmdMsg) : List Char :=
  (toString msg.msgId).data ++ '-' :: (toString msg.refMsgId).data

/-- bot.py `factcheck_command`, the try block after the cache check:
fetch the referenced message, run the agent fact check on its content,
attach the request id field, send the result, and store it in the cache;
any exception is caught and reported without touching the cache. -/
def factcheck_try_block (cache : Cache) (msg : CmdMsg) (now : Int)
    (fetched : Except Unit (List Char)) (aenv : AgentEnv) : List BotEv × Cache :=
  match fetched with
  | .error _ => ([.fetchMessage msg.refMsgId, .sendErrorMessage], cache)
  | .ok content =>
    match (fact_check aenv content).2 with
    | .error _ =>
      ([.fetchMessage msg.refMsgId, .agentFactCheck content, .sendErrorMessage], cache)
    | .ok e =>
      let e2 := addField e "\u200b".data ("Request ID: ".data ++ requestIdOf msg) false
      ([.fetchMessage msg.refMsgId, .agentFactCheck content, .sendResultEmbed],
       dictSet cache msg.refMsgId (now, e2))

/-- bot.py `factcheck_command`: require a reply, serve a fresh cached
result when one exists, delete an expired entry before recomputing, and
otherwise run the try block. -/
def factcheck_command (cache : Cache) (msg : CmdMsg) (now : Int)
    (fetched : Except Unit (List Char)) (aenv : AgentEnv) : List BotEv × Cache :=
  if msg.isReply = false then ([.sendInstruction], cache)
  else
    match List.lookup msg.refMsgId cache with
    | some (ts, _) =>
      if now - ts < CACHE_EXPIRY then ([.sendCachedResult], cache)
      else factcheck_try_block (dictRemove cache msg.refMsgId) msg now fetched aenv
    | none => factcheck_try_block cache msg now fetched aenv

end Sherlock

namespace Sherlock

/-! ### Claim C1: duplicate prevention -/

/-- An invocation of the factcheck command. -/
def ctxFactcheckA : Ctx := ⟨"factcheck", 1, 5, 7⟩

/-- A second, overlapping invocation of the same command from a different
command message (different message id, same channel and author). -/
def ctxFactcheckB : Ctx := ⟨"factcheck", 2, 5, 7⟩

/-- C1 counterexample: with the invocation `ctxFactcheckA` still being
processed (its hash in the active map), a later overlapping invocation
`ctxFactcheckB` of the same bot command is NOT rejected: the duplicate
check keys on the command hash, which includes the command message id, so
the later invocation starts a second concurrent task. -/
theorem C1_counterexample :
    (tryStartCommand (tryStartCommand [] (get_command_hash ctxFactcheckA)).2
      (get_command_hash ctxFactcheckB)).1 = true ∧
    ctxFactcheckA.commandName = ctxFactcheckB.commandName ∧
    ctxFactcheckA ≠ ctxFactcheckB := by
  decide

/-- C1 (amended): a later invocation is rejected with the wait notice
exactly when its command hash (command name, message id, channel id,
author id) is still in the active map; a rejected invocation leaves the
map unchanged, so overlapping invocations from different command messages
are not rejected and may run concurrently. -/
theorem C1_duplicate_rejection (active : List String) (ctx : Ctx) :
    ((tryStartCommand active (get_command_hash ctx)).1 = false ↔
      get_command_hash ctx ∈ active) ∧
    (get_command_hash ctx ∈ active →
      tryStartCommand active (get_command_hash ctx) = (false, active)) := by
  unfold tryStartCommand
  constructor
  · constructor
    · intro h
      by_contra hmem
      simp [hmem] at h
    · intro hmem
      simp [hmem]
  · intro hmem
    simp [hmem]

/-- C1 witness: a concrete duplicate delivery of the very same command
message is rejected and the active map is unchanged. -/
theorem C1_duplicate_rejection_witness :
    tryStartCommand [get_command_hash ctxFactcheckA] (get_command_hash ctxFactcheckA) =
      (false, [get_command_hash ctxFactcheckA]) :=
  (C1_duplicate_rejection [get_command_hash ctxFactcheckA] ctxFactcheckA).2
    (List.mem_singleton.mpr rfl)

/-! ### Claim C9: the finally-cleanup of prevent_duplicate -/

/-- C9: for a wrapped invocation whose hash is not already active (so the
body actually runs), the hash is removed from the active map when the
invocation finishes, whether the body returns normally or raises; the
final map equals the original one, so a failed run never permanently
blocks the same command. -/
theorem C9_finally_cleanup {α : Type} (active : List String) (ctx : Ctx)
    (body : BodyOutcome α) (h : get_command_hash ctx ∉ active) :
    (prevent_duplicate_run active ctx body).2 = active ∧
    (prevent_duplicate_run active ctx body).1 ≠ WrapOutcome.rejected := by
  unfold prevent_duplicate_run tryStartCommand finishCommand
  cases body <;> simp [h]

/-- C9 witness: a concrete run whose body raises still ends with the
entry removed (the active map back to empty). -/
theorem C9_finally_cleanup_witness :
    (prevent_duplicate_run [] ctxFactcheckA (BodyOutcome.raised (α := Nat))).2 = [] ∧
    (prevent_duplicate_run [] ctxFactcheckA (BodyOutcome.raised (α := Nat))).1 ≠
      WrapOutcome.rejected :=
  C9_finally_cleanup [] ctxFactcheckA (BodyOutcome.raised (α := Nat)) (by decide)

/-! ### Claim C3: the bounded processed-commands set -/

/-- Helper: one `on_message` step keeps the processed set within the
bound. -/
theorem on_message_step_card (s : Finset Nat) (m : InMsg)
    (h : s.card ≤ MAX_PROCESSED_COMMANDS) :
    ((on_message_step s m).1).card ≤ MAX_PROCESSED_COMMANDS := by
  unfold on_message_step
  split_ifs with h1 h2 h3
  · exact h
  · exact h
  · exact h
  · dsimp only
    split_ifs with h4
    · simp
    · exact Nat.le_of_not_lt h4

/-- Helper: the bound is preserved along any message sequence. -/
theorem processed_foldl_card (msgs : List InMsg) (s : Finset Nat)
    (h : s.card ≤ MAX_PROCESSED_COMMANDS) :
    (msgs.foldl (fun s m => (on_message_step s m).1) s).card ≤ MAX_PROCESSED_COMMANDS := by
  induction msgs generalizing s with
  | nil => exact h
  | cons m t ih => exact ih _ (on_message_step_card s m h)

/-- C3: after `on_message` finishes processing any message of any incoming
sequence, the processed-commands set holds at most
`MAX_PROCESSED_COMMANDS` (1000) ids, and a command message whose id is
already in the set is not dispatched again. -/
theorem C3_processed_commands_bounded (msgs : List InMsg) (s : Finset Nat)
    (m : InMsg) (hm : m.id ∈ s) :
    (processed_after msgs).card ≤ MAX_PROCESSED_COMMANDS ∧
    (on_message_step s m).2 = false := by
  refine ⟨processed_foldl_card msgs ∅ (by simp), ?_⟩
  unfold on_message_step
  split_ifs with h1 h2 _h3
  · rfl
  · rfl
  · rfl

/-- C3 witness: a concrete sequence stays within the bound, and a message
whose id was already recorded is not dispatched. -/
theorem C3_processed_commands_bounded_witness :
    (processed_after [⟨false, "!ping".data, 5⟩]).card ≤ MAX_PROCESSED_COMMANDS ∧
    (on_message_step {5} ⟨false, "!ping".data, 5⟩).2 = false :=
  C3_processed_commands_bounded [⟨false, "!ping".data, 5⟩] {5}
    ⟨false, "!ping".data, 5⟩ (by decide)

end Sherlock

namespace Sherlock

/-! ### Claim C4: the time-expiring result cache -/

/-- Helper: the recompute path never serves from the cache. -/
theorem sendCached_not_in_try_block (cache : Cache) (msg : CmdMsg) (now : Int)
    (fetched : Except Unit (List Char)) (aenv : AgentEnv) :
    BotEv.sendCachedResult ∉ (factcheck_try_block cache msg now fetched aenv).1 := by
  unfold factcheck_try_block
  cases fetched with
  | error e => simp
  | ok content =>
    rcases h : (fact_check aenv content).2 with _ | e <;> simp [h]

/-- C4: a cached result for the referenced message is served only when it
was stored strictly less than `CACHE_EXPIRY` (600) seconds before the
request; when the entry is at least that old the command instead behaves
exactly like a fresh run on the cache with that entry deleted, and the
cached result is not served. -/
theorem C4_cache_expiry (cache : Cache) (msg : CmdMsg) (now ts : Int) (e : DEmbed)
    (fetched : Except Unit (List Char)) (aenv : AgentEnv)
    (hr : msg.isReply = true)
    (hl : List.lookup msg.refMsgId cache = some (ts, e)) :
    (now - ts < CACHE_EXPIRY →
      factcheck_command cache msg now fetched aenv = ([BotEv.sendCachedResult], cache)) ∧
    (CACHE_EXPIRY ≤ now - ts →
      factcheck_command cache msg now fetched aenv =
        factcheck_try_block (dictRemove cache msg.refMsgId) msg now fetched aenv ∧
      BotEv.sendCachedResult ∉ (factcheck_command cache msg now fetched aenv).1) := by
  unfold factcheck_command
  rw [hl]
  simp only [hr, Bool.true_eq_false, if_false]
  constructor
  · intro hfresh
    rw [if_pos hfresh]
  · intro hold
    have hnot : ¬(now - ts < CACHE_EXPIRY) := not_lt.mpr hold
    rw [if_neg hnot]
    exact ⟨rfl, sendCached_not_in_try_block _ _ _ _ _⟩

/-- A throwaway embed for concrete witnesses. -/
def embedW : DEmbed := ⟨[], [], ECol.lightGray, [], none⟩

/-- A throwaway agent environment for concrete witnesses: every external
call raises. -/
def aenvW : AgentEnv := ⟨Except.error (), ScrapeOut.raisedInner, Except.error ()⟩

/-- C4 witness: with a concrete entry stored 700 seconds ago, the command
recomputes on the cache minus that entry and does not serve from cache. -/
theorem C4_cache_expiry_witness :
    factcheck_command [(3, (0, embedW))] ⟨true, 3, 9⟩ 700 (Except.error ()) aenvW =
      factcheck_try_block (dictRemove [(3, (0, embedW))] 3) ⟨true, 3, 9⟩ 700
        (Except.error ()) aenvW ∧
    BotEv.sendCachedResult ∉
      (factcheck_command [(3, (0, embedW))] ⟨true, 3, 9⟩ 700 (Except.error ()) aenvW).1 :=
  (C4_cache_expiry [(3, (0, embedW))] ⟨true, 3, 9⟩ 700 0 embedW (Except.error ()) aenvW
    rfl rfl).2 (by norm_num [CACHE_EXPIRY])

/-! ### Claim C8: the claim comes from the replied-to message -/

/-- Helper: when the try block records an agent call on `c`, the fetch of
the referenced message returned exactly `c`. -/
theorem agentCall_content_of_try_block (cache : Cache) (msg : CmdMsg) (now : Int)
    (fetched : Except Unit (List Char)) (aenv : AgentEnv) (c : List Char)
    (h : BotEv.agentFactCheck c ∈ (factcheck_try_block cache msg now fetched aenv).1) :
    fetched = Except.ok c := by
  unfold factcheck_try_block at h
  cases fetched with
  | error e => simp at h
  | ok content =>
    dsimp only at h
    rcases hfc : (fact_check aenv content).2 with _ | e <;>
      · rw [hfc] at h
        simp at h
        simp [h]

/-- C8: when the command message is not a reply, the handler sends the
instruction message and stops: no message fetch, no agent call, no cache
change.  When it does run the agent, the claim passed to the fact check is
exactly the content returned by fetching the replied-to message. -/
theorem C8_claim_is_replied_message (cache : Cache) (msg : CmdMsg) (now : Int)
    (fetched : Except Unit (List Char)) (aenv : AgentEnv) :
    (msg.isReply = false →
      factcheck_command cache msg now fetched aenv = ([BotEv.sendInstruction], cache)) ∧
    (∀ c, BotEv.agentFactCheck c ∈ (factcheck_command cache msg now fetched aenv).1 →
      fetched = Except.ok c) := by
  constructor
  · intro hnr
    unfold factcheck_command
    simp [hnr]
  · intro c hc
    unfold factcheck_command at hc
    by_cases hr : msg.isReply = false
    · simp [hr] at hc
    · simp only [hr, if_false, Bool.false_eq_true, if_neg] at hc
      rcases hl : List.lookup msg.refMsgId cache with _ | ⟨ts, e⟩
      · rw [hl] at hc
        exact agentCall_content_of_try_block _ _ _ _ _ _ hc
      · rw [hl] at hc
        by_cases hfresh : now - ts < CACHE_EXPIRY
        · simp [hfresh] at hc
        · simp only [hfresh, if_false, if_neg] at hc
          exact agentCall_content_of_try_block _ _ _ _ _ _ hc

/-- C8 witness: a concrete non-reply invocation only sends the
instruction message and leaves the cache unchanged. -/
theorem C8_claim_is_replied_message_witness :
    factcheck_command [] ⟨false, 0, 0⟩ 0 (Except.error ()) aenvW =
      ([BotEv.sendInstruction], []) :=
  (C8_claim_is_replied_message [] ⟨false, 0, 0⟩ 0 (Except.error ()) aenvW).1 rfl

/-! ### Claim C5: two LLM calls with the browser between them -/

/-- Whether an agent event is a remote LLM request. -/
def isLLMCall : AEv → Bool
  | .llmSummarize => true
  | .llmAssess => true
  | .browserSearch => false

/-- Helper: the trace of external calls of `fact_check` is always the
summarize request, the browser search, then the assessment request. -/
theorem fact_check_trace (env : AgentEnv) (claim : List Char) :
    (fact_check env claim).1 = [AEv.llmSummarize, AEv.browserSearch, AEv.llmAssess] := by
  unfold fact_check
  rcases env.assessOut with _ | raw
  · rfl
  · dsimp only
    split_ifs <;> rfl

/-- C5: every `fact_check` run performs exactly the call sequence
summarize-LLM, browser search, assessment-LLM: the remote LLM is called
exactly twice in that order and the headless browser at most once,
between the two LLM calls. -/
theorem C5_call_sequence (env : AgentEnv) (claim : List Char) :
    (fact_check env claim).1 = [AEv.llmSummarize, AEv.browserSearch, AEv.llmAssess] ∧
    ((fact_check env claim).1.filter isLLMCall) = [AEv.llmSummarize, AEv.llmAssess] ∧
    (fact_check env claim).1.count AEv.browserSearch ≤ 1 := by
  have htr := fact_check_trace env claim
  refine ⟨htr, ?_, ?_⟩ <;> rw [htr] <;> decide

end Sherlock

namespace Sherlock

/-! ### Claim C10: clean_for_search -/

/-- No two adjacent spaces occur in the list. -/
def noTwoSpaces : List Char → Bool
  | a :: b :: t => !(a == ' ' && b == ' ') && noTwoSpaces (b :: t)
  | _ => true

/-- Every word produced by the whitespace splitter is nonempty and free of
whitespace characters (given a whitespace-free accumulator). -/
theorem pySplitWsAux_words (l : List Char) : ∀ (acc : List Char),
    (∀ c ∈ acc, pyWs c = false) →
    ∀ u ∈ pySplitWsAux acc l, u ≠ [] ∧ ∀ c ∈ u, pyWs c = false := by
  induction l with
  | nil =>
    intro acc hacc u hu
    unfold pySplitWsAux at hu
    by_cases h : acc = []
    · simp [h] at hu
    · rw [if_neg h] at hu
      rcases List.mem_singleton.mp hu with rfl
      exact ⟨h, hacc⟩
  | cons c t ih =>
    intro acc hacc u hu
    unfold pySplitWsAux at hu
    by_cases hws : pyWs c
    · rw [if_pos hws] at hu
      by_cases hacc0 : acc = []
      · rw [if_pos hacc0] at hu
        exact ih [] (by simp) u hu
      · rw [if_neg hacc0] at hu
        rcases List.mem_cons.mp hu with rfl | h
        · exact ⟨hacc0, hacc⟩
        · exact ih [] (by simp) u h
    · rw [if_neg hws] at hu
      refine ih (acc ++ [c]) ?_ u hu
      intro x hx
      rcases List.mem_append.mp hx with h | h
      · exact hacc x h
      · rcases List.mem_singleton.mp h with rfl
        simpa using hws

/-- Every character of a produced word comes from the accumulator or from
the input. -/
theorem pySplitWsAux_chars (l : List Char) : ∀ (acc u : List Char),
    u ∈ pySplitWsAux acc l → ∀ c ∈ u, c ∈ acc ∨ c ∈ l := by
  induction l with
  | nil =>
    intro acc u hu c hc
    unfold pySplitWsAux at hu
    by_cases h : acc = []
    · simp [h] at hu
    · rw [if_neg h] at hu
      rcases List.mem_singleton.mp hu with rfl
      exact Or.inl hc
  | cons a t ih =>
    intro acc u hu c hc
    unfold pySplitWsAux at hu
    by_cases hws : pyWs a
    · rw [if_pos hws] at hu
      by_cases hacc0 : acc = []
      · rw [if_pos hacc0] at hu
        rcases ih [] u hu c hc with h | h
        · simp at h
        · exact Or.inr (List.mem_cons_of_mem a h)
      · rw [if_neg hacc0] at hu
        rcases List.mem_cons.mp hu with rfl | h
        · exact Or.inl hc
        · rcases ih [] u h c hc with h2 | h2
          · simp at h2
          · exact Or.inr (List.mem_cons_of_mem a h2)
    · rw [if_neg hws] at hu
      rcases ih (acc ++ [a]) u hu c hc with h | h
      · rcases List.mem_append.mp h with h2 | h2
        · exact Or.inl h2
        · rcases List.mem_singleton.mp h2 with rfl
          exact Or.inr (by simp)
      · exact Or.inr (List.mem_cons_of_mem a h)

/-- Splitting a whitespace-free block followed by a rest absorbs the block
into the accumulator. -/
theorem pySplitWsAux_append (u : List Char) : ∀ (acc l : List Char),
    (∀ c ∈ u, pyWs c = false) →
    pySplitWsAux acc (u ++ l) = pySplitWsAux (acc ++ u) l := by
  induction u with
  | nil => intro acc l _; simp
  | cons c t ih =>
    intro acc l hu
    have hc : pyWs c = false := hu c (List.mem_cons_self c t)
    show pySplitWsAux acc (c :: (t ++ l)) = _
    conv_lhs => rw [pySplitWsAux]
    rw [hc]
    simp only [Bool.false_eq_true, if_false]
    rw [ih (acc ++ [c]) l (fun x hx => hu x (List.mem_cons_of_mem c hx)),
      List.append_assoc]
    rfl

/-- Splitting ends the final word at the end of the input. -/
theorem pySplitWsAux_nil_ne (acc : List Char) (h : acc ≠ []) :
    pySplitWsAux acc [] = [acc] := by
  unfold pySplitWsAux
  rw [if_neg h]

/-- A space flushes a nonempty accumulator as a word. -/
theorem pySplitWsAux_space (acc l : List Char) (h : acc ≠ []) :
    pySplitWsAux acc (' ' :: l) = acc :: pySplitWsAux [] l := by
  conv_lhs => rw [pySplitWsAux]
  rw [if_pos (by decide), if_neg h]

/-- Splitting the space-joined list of nonempty whitespace-free words
returns exactly those words. -/
theorem pySplitWs_joinSp (W : List (List Char))
    (hW : ∀ u ∈ W, u ≠ [] ∧ ∀ c ∈ u, pyWs c = false) :
    pySplitWs (joinSp W) = W := by
  induction W with
  | nil => rfl
  | cons u W ih =>
    have hu := hW u (List.mem_cons_self u W)
    cases W with
    | nil =>
      show pySplitWsAux [] (joinSp [u]) = [u]
      have : joinSp [u] = u ++ [] := by simp [joinSp]
      rw [this, pySplitWsAux_append u [] [] hu.2]
      exact pySplitWsAux_nil_ne u hu.1
    | cons v W' =>
      show pySplitWsAux [] (joinSp (u :: v :: W')) = u :: v :: W'
      have hjoin : joinSp (u :: v :: W') = u ++ ' ' :: joinSp (v :: W') := rfl
      rw [hjoin, pySplitWsAux_append u [] _ hu.2]
      simp only [List.nil_append]
      rw [pySplitWsAux_space u _ hu.1]
      exact congrArg (u :: ·) (ih (fun w hw => hW w (List.mem_cons_of_mem u hw)))

end Sherlock

namespace Sherlock

/-- A word character is kept by the substitution. -/
theorem keepChar_of_wordChar (c : Char) (h : wordChar c = true) : keepChar c = true := by
  simp only [keepChar, wordChar, Bool.or_eq_true] at *
  tauto

/-- A kept non-whitespace character is a word character. -/
theorem wordChar_of_keep_not_ws (c : Char) (hk : keepChar c = true)
    (hw : pyWs c = false) : wordChar c = true := by
  unfold keepChar at hk
  rw [hw] at hk
  simpa [wordChar] using hk

/-- Every character of the substituted text is in the kept class (the
substitution writes a space, itself kept, elsewhere). -/
theorem cleaned_all_keep (text : List Char) :
    ∀ c ∈ text.map (fun c => if keepChar c then c else ' '), keepChar c = true := by
  intro c hc
  rcases List.mem_map.mp hc with ⟨a, _, rfl⟩
  by_cases h : keepChar a = true
  · rw [if_pos h]; exact h
  · rw [if_neg h]; decide

/-- The words of the cleaned text are nonempty, whitespace-free, and made
of word characters. -/
theorem clean_words (text : List Char) :
    ∀ u ∈ pySplitWs (text.map (fun c => if keepChar c then c else ' ')),
      u ≠ [] ∧ (∀ c ∈ u, pyWs c = false) ∧ (∀ c ∈ u, wordChar c = true) := by
  intro u hu
  have h1 := pySplitWsAux_words _ [] (by simp) u hu
  refine ⟨h1.1, h1.2, ?_⟩
  intro c hc
  rcases pySplitWsAux_chars _ [] u hu c hc with h2 | h2
  · simp at h2
  · exact wordChar_of_keep_not_ws c (cleaned_all_keep text c h2) (h1.2 c hc)

/-- Every character of the space-joined words is a space or a character of
one of the words. -/
theorem joinSp_chars (W : List (List Char)) :
    ∀ c ∈ joinSp W, c = ' ' ∨ ∃ u ∈ W, c ∈ u := by
  induction W with
  | nil => simp [joinSp]
  | cons u W ih =>
    cases W with
    | nil =>
      intro c hc
      exact Or.inr ⟨u, by simp, by simpa [joinSp] using hc⟩
    | cons v W' =>
      intro c hc
      have hj : joinSp (u :: v :: W') = u ++ ' ' :: joinSp (v :: W') := rfl
      rw [hj] at hc
      rcases List.mem_append.mp hc with h | h
      · exact Or.inr ⟨u, by simp, h⟩
      · rcases List.mem_cons.mp h with rfl | h
        · exact Or.inl rfl
        · rcases ih c h with h2 | ⟨w, hw, hcw⟩
          · exact Or.inl h2
          · exact Or.inr ⟨w, List.mem_cons_of_mem u hw, hcw⟩

/-- The joined words do not start with a space. -/
theorem joinSp_head_ne_space (W : List (List Char))
    (hW : ∀ u ∈ W, u ≠ [] ∧ ∀ c ∈ u, pyWs c = false) :
    (joinSp W).head? ≠ some ' ' := by
  cases W with
  | nil => simp [joinSp]
  | cons u W' =>
    have hu := hW u (List.mem_cons_self _ _)
    rcases hu0 : u with _ | ⟨a, u'⟩
    · exact absurd hu0 hu.1
    · have ha : pyWs a = false := hu.2 a (by rw [hu0]; exact List.mem_cons_self _ _)
      have hhead : (joinSp ((a :: u') :: W')).head? = some a := by
        cases W' <;> simp [joinSp]
      rw [hhead]
      intro hcon
      rw [Option.some_inj.mp hcon] at ha
      exact absurd ha (by decide)

/-- The joined words do not end with a space. -/
theorem joinSp_getLast_ne_space (W : List (List Char))
    (hW : ∀ u ∈ W, u ≠ [] ∧ ∀ c ∈ u, pyWs c = false) :
    (joinSp W).getLast? ≠ some ' ' := by
  induction W with
  | nil => simp [joinSp]
  | cons u W' ih =>
    have hu := hW u (List.mem_cons_self _ _)
    cases W' with
    | nil =>
      show (joinSp [u]).getLast? ≠ some ' '
      intro hcon
      have hmem : ' ' ∈ u := List.mem_of_mem_getLast? (by simpa [joinSp] using hcon)
      exact absurd (hu.2 ' ' hmem) (by decide)
    | cons v W'' =>
      have hv := hW v (List.mem_cons_of_mem u (List.mem_cons_self _ _))
      have hne : joinSp (v :: W'') ≠ [] := by
        rcases hv0 : v with _ | ⟨a, v'⟩
        · exact absurd hv0 hv.1
        · cases W'' <;> simp [joinSp]
      have hj : joinSp (u :: v :: W'') = u ++ [' '] ++ joinSp (v :: W'') := by
        show u ++ ' ' :: joinSp (v :: W'') = _
        simp
      rw [hj, List.getLast?_append_of_ne_nil _ hne]
      exact ih (fun w hw => hW w (List.mem_cons_of_mem u hw))

/-- Appending a space-free block before a no-double-space list keeps it
free of double spaces. -/
theorem noTwoSpaces_append (u : List Char) : ∀ (l : List Char),
    (∀ c ∈ u, c ≠ ' ') → noTwoSpaces l = true → noTwoSpaces (u ++ l) = true := by
  induction u with
  | nil => intro l _ hl; simpa
  | cons c t ih =>
    intro l hu hl
    have hc : (c == ' ') = false :=
      beq_eq_false_iff_ne.mpr (hu c (List.mem_cons_self _ _))
    have ht : noTwoSpaces (t ++ l) = true :=
      ih l (fun x hx => hu x (List.mem_cons_of_mem c hx)) hl
    show noTwoSpaces (c :: (t ++ l)) = true
    cases h : t ++ l with
    | nil => rfl
    | cons b r =>
      rw [h] at ht
      show noTwoSpaces (c :: b :: r) = true
      unfold noTwoSpaces
      rw [hc, ht]
      rfl

/-- A space may be prepended to a no-double-space list not starting with a
space. -/
theorem noTwoSpaces_space_cons (l : List Char) (hl : noTwoSpaces l = true)
    (hh : l.head? ≠ some ' ') : noTwoSpaces (' ' :: l) = true := by
  cases l with
  | nil => rfl
  | cons b r =>
    have hb : (b == ' ') = false := by
      refine beq_eq_false_iff_ne.mpr ?_
      intro hcon
      exact hh (by rw [hcon]; rfl)
    show noTwoSpaces (' ' :: b :: r) = true
    unfold noTwoSpaces
    rw [hb, hl]
    rfl

/-- The joined words contain no double space. -/
theorem joinSp_noTwoSpaces (W : List (List Char))
    (hW : ∀ u ∈ W, u ≠ [] ∧ ∀ c ∈ u, pyWs c = false) :
    noTwoSpaces (joinSp W) = true := by
  induction W with
  | nil => rfl
  | cons u W' ih =>
    have hu := hW u (List.mem_cons_self _ _)
    have huns : ∀ c ∈ u, c ≠ ' ' := by
      intro c hc hcon
      rw [hcon] at hc
      exact absurd (hu.2 ' ' hc) (by decide)
    cases W' with
    | nil =>
      show noTwoSpaces (joinSp [u]) = true
      have hj : joinSp [u] = u ++ [] := by simp [joinSp]
      rw [hj]
      exact noTwoSpaces_append u [] huns rfl
    | cons v W'' =>
      have htail : ∀ w ∈ v :: W'', w ≠ [] ∧ ∀ c ∈ w, pyWs c = false :=
        fun w hw => hW w (List.mem_cons_of_mem u hw)
      show noTwoSpaces (u ++ ' ' :: joinSp (v :: W'')) = true
      exact noTwoSpaces_append u _ huns
        (noTwoSpaces_space_cons _ (ih htail) (joinSp_head_ne_space _ htail))

/-- The substitution is the identity on a text of kept characters. -/
theorem map_keep_id_of (l : List Char) (h : ∀ c ∈ l, keepChar c = true) :
    l.map (fun c => if keepChar c then c else ' ') = l := by
  conv_rhs => rw [← List.map_id l]
  exact List.map_congr_left (fun a ha => by rw [if_pos (h a ha)]; rfl)

/-- C10: `clean_for_search` is idempotent, its output consists only of
ASCII letters, digits and apostrophes separated by single interior
spaces, and it neither starts nor ends with whitespace. -/
theorem C10_clean_for_search_normalform (text : List Char) :
    clean_for_search (clean_for_search text) = clean_for_search text ∧
    (∀ c ∈ clean_for_search text, wordChar c = true ∨ c = ' ') ∧
    (clean_for_search text).head? ≠ some ' ' ∧
    (clean_for_search text).getLast? ≠ some ' ' ∧
    noTwoSpaces (clean_for_search text) = true := by
  have hwords := clean_words text
  have hW : ∀ u ∈ pySplitWs (text.map (fun c => if keepChar c then c else ' ')),
      u ≠ [] ∧ ∀ c ∈ u, pyWs c = false :=
    fun u hu => ⟨(hwords u hu).1, (hwords u hu).2.1⟩
  have hclean : clean_for_search text =
      joinSp (pySplitWs (text.map (fun c => if keepChar c then c else ' '))) := rfl
  have hkeep : ∀ c ∈ clean_for_search text, keepChar c = true := by
    intro c hc
    rw [hclean] at hc
    rcases joinSp_chars _ c hc with rfl | ⟨u, hu, hcu⟩
    · decide
    · exact keepChar_of_wordChar c ((hwords u hu).2.2 c hcu)
  refine ⟨?_, ?_, ?_, ?_, ?_⟩
  · rw [hclean] at hkeep ⊢
    show joinSp (pySplitWs ((joinSp
      (pySplitWs (text.map (fun c => if keepChar c then c else ' ')))).map
        (fun c => if keepChar c then c else ' '))) = _
    rw [map_keep_id_of _ hkeep, pySplitWs_joinSp _ hW]
  · intro c hc
    rw [hclean] at hc
    rcases joinSp_chars _ c hc with rfl | ⟨u, hu, hcu⟩
    · exact Or.inr rfl
    · exact Or.inl ((hwords u hu).2.2 c hcu)
  · rw [hclean]; exact joinSp_head_ne_space _ hW
  · rw [hclean]; exact joinSp_getLast_ne_space _ hW
  · rw [hclean]; exact joinSp_noTwoSpaces _ hW

end Sherlock

namespace Sherlock

/-! ### Claim C2: length bounds of the display fields -/

/-- One sentence step keeps the accumulated chunk within `cs` and every
emitted chunk within `cs + 1`, provided the sentence itself fits in `cs`. -/
theorem sentenceStep_inv (cs : Nat) (st : ChunkSt) (sentence : List Char)
    (hs : sentence.length ≤ cs)
    (hcur : st.current.length ≤ cs)
    (hch : ∀ c ∈ st.chunks, c.length ≤ cs + 1) :
    (sentenceStep cs st sentence).current.length ≤ cs ∧
    ∀ c ∈ (sentenceStep cs st sentence).chunks, c.length ≤ cs + 1 := by
  unfold sentenceStep
  by_cases h1 : st.current.length + sentence.length + 2 ≤ cs
  · rw [if_pos h1]
    by_cases h2 : st.current = []
    · rw [if_pos h2]
      exact ⟨hs, hch⟩
    · rw [if_neg h2]
      refine ⟨?_, hch⟩
      simp only [List.length_append, List.length_cons]
      omega
  · rw [if_neg h1]
    by_cases h3 : st.current ≠ []
    · rw [if_pos h3]
      refine ⟨hs, ?_⟩
      intro c hc
      rcases List.mem_append.mp hc with h | h
      · exact hch c h
      · rcases List.mem_singleton.mp h with rfl
        simp only [List.length_append, List.length_cons, List.length_nil]
        omega
    · rw [if_neg h3]
      have h4 : ¬ cs < sentence.length := by omega
      rw [if_neg h4]
      exact ⟨hs, hch⟩

/-- The sentence loop preserves the chunk-length invariant. -/
theorem chunk_foldl_inv (cs : Nat) (sentences : List (List Char)) :
    ∀ (st : ChunkSt), (∀ s ∈ sentences, s.length ≤ cs) →
    st.current.length ≤ cs → (∀ c ∈ st.chunks, c.length ≤ cs + 1) →
    ((sentences.foldl (sentenceStep cs) st).current.length ≤ cs ∧
     ∀ c ∈ (sentences.foldl (sentenceStep cs) st).chunks, c.length ≤ cs + 1) := by
  induction sentences with
  | nil => intro st _ h1 h2; exact ⟨h1, h2⟩
  | cons s t ih =>
    intro st hs h1 h2
    have hstep := sentenceStep_inv cs st s (hs s (List.mem_cons_self _ _)) h1 h2
    exact ih _ (fun x hx => hs x (List.mem_cons_of_mem s hx)) hstep.1 hstep.2

/-- When every `". "`-separated sentence of the text fits in `cs`, every
chunk produced by the splitter has at most `cs + 1` characters. -/
theorem split_into_chunks_bound (cs : Nat) (text : List Char)
    (hs : ∀ s ∈ splitOnDotSpace text, s.length ≤ cs) :
    ∀ c ∈ split_into_chunks text cs, c.length ≤ cs + 1 := by
  unfold split_into_chunks
  by_cases h : text.length ≤ cs
  · rw [if_pos h]
    intro c hc
    rcases List.mem_singleton.mp hc with rfl
    omega
  · rw [if_neg h]
    have hinv := chunk_foldl_inv cs (splitOnDotSpace text) ⟨[], []⟩ hs
      (by simp) (by simp)
    have hcur := hinv.1
    dsimp only
    split_ifs with hfin
    · intro c hc
      rcases List.mem_append.mp hc with h2 | h2
      · exact hinv.2 c h2
      · rcases List.mem_singleton.mp h2 with rfl
        omega
    · exact hinv.2

/-- A concrete raw section content: a ten-character sentence followed by a
1200-character sentence with no further separator. -/
def longSectionText : List Char :=
  List.replicate 10 'a' ++ '.' :: ' ' :: List.replicate 1200 'b'

set_option maxRecDepth 40000 in
/-- C2 counterexample: on `longSectionText` the splitter called with chunk
size 1000 emits a chunk of 1200 characters, so a section chunk used as an
embed field value can exceed 1000 characters. -/
theorem C2_counterexample :
    ¬ ∀ c ∈ split_into_chunks longSectionText 1000, c.length ≤ 1000 := by
  intro hall
  have hm : (split_into_chunks longSectionText 1000).map List.length = [11, 1200] := by
    decide
  have h1200 : (1200 : Nat) ∈ (split_into_chunks longSectionText 1000).map List.length := by
    rw [hm]
    exact List.mem_cons_of_mem 11 (List.mem_cons_self _ _)
  rcases List.mem_map.mp h1200 with ⟨c, hc, hlen⟩
  have := hall c hc
  omega

/-- C2 (amended): the quoted claim in the embed description is truncated
to at most 4000 characters; and every section chunk emitted by the
splitter at chunk size 1000 has at most 1001 characters provided every
`". "`-separated sentence of the section content has at most 1000
characters (without that proviso a chunk can be longer, as the
counterexample shows). -/
theorem C2_field_length_bounds (text claim : List Char)
    (hs : ∀ s ∈ splitOnDotSpace text, s.length ≤ 1000) :
    (∀ c ∈ split_into_chunks text 1000, c.length ≤ 1001) ∧
    (truncate_text claim 4000).length ≤ 4000 := by
  refine ⟨split_into_chunks_bound 1000 text hs, ?_⟩
  unfold truncate_text
  by_cases h : claim.length ≤ 4000
  · rw [if_pos h]
    exact h
  · rw [if_neg h]
    rw [List.length_append, List.length_take]
    have h3 : ("...".data).length = 3 := rfl
    have hmin : min (4000 - 3) claim.length ≤ 4000 - 3 := min_le_left _ _
    omega

/-- C2 witness: a concrete short content satisfies the sentence proviso
and every chunk and the truncated claim observe the bounds. -/
theorem C2_field_length_bounds_witness :
    (∀ c ∈ split_into_chunks "Hi there. All good".data 1000, c.length ≤ 1001) ∧
    (truncate_text "Some claim".data 4000).length ≤ 4000 :=
  C2_field_length_bounds "Hi there. All good".data "Some claim".data (by decide)

end Sherlock

namespace Sherlock

/-! ### Claim C6: the rating is one of four values with derived colour and emoji -/

/-- The Python substring test agrees with list infixes. -/
theorem containsSeq_iff (pat l : List Char) : containsSeq pat l = true ↔ pat <:+: l := by
  induction l with
  | nil =>
    unfold containsSeq
    rw [List.isPrefixOf_iff_prefix]
    exact ⟨fun h => h.isInfix, fun h => by
      rw [List.infix_nil] at h
      subst h
      exact List.nil_prefix⟩
  | cons a t ih =>
    unfold containsSeq
    rw [Bool.or_eq_true, List.isPrefixOf_iff_prefix, ih, List.infix_cons_iff]

/-- A text containing `Partially True` contains `True`. -/
theorem containsTrue_of_containsPartially (l : List Char)
    (h : containsSeq "Partially True".data l = true) :
    containsSeq "True".data l = true := by
  rw [containsSeq_iff] at *
  exact List.IsInfix.trans (by decide) h

/-- The colour the source pairs with each rating string. -/
def colorForRating (r : List Char) : ECol :=
  if r = "False".data then ECol.red
  else if r = "True".data then ECol.green
  else if r = "Partially True".data then ECol.gold
  else ECol.lightGray

/-- Helper: the rating string is one of the four values. -/
theorem ratingAndColor_mem (raw : List Char) :
    (ratingAndColor raw).1 = "True".data ∨ (ratingAndColor raw).1 = "Partially True".data ∨
    (ratingAndColor raw).1 = "False".data ∨ (ratingAndColor raw).1 = "Unverifiable".data := by
  unfold ratingAndColor
  dsimp only
  split_ifs <;> simp

/-- Helper: the colour always equals the colour derived from the rating. -/
theorem ratingAndColor_color (raw : List Char) :
    (ratingAndColor raw).2 = colorForRating (ratingAndColor raw).1 := by
  unfold ratingAndColor
  dsimp only
  split_ifs <;> decide

/-- Helper: when no rating can be identified anywhere in the text, the
default `Unverifiable` survives. -/
theorem ratingAndColor_default (raw : List Char)
    (hR : containsSeq "Rating:".data raw = false)
    (hT : containsSeq "True".data raw = false)
    (hF : containsSeq "False".data raw = false) :
    (ratingAndColor raw).1 = "Unverifiable".data := by
  have hP : containsSeq "Partially True".data raw = false := by
    rcases Bool.eq_false_or_eq_true (containsSeq "Partially True".data raw) with h | h
    · rw [containsTrue_of_containsPartially raw h] at hT
      cases hT
    · exact h
  unfold ratingAndColor
  rw [hR, hF, hT, hP]
  rfl

/-- Helper: the embed colour and the leading rating field of the built
embed come from the rating determination. -/
theorem create_embed_color_and_rating_field (raw claim : List Char) :
    (create_fact_check_embed raw claim).color = (ratingAndColor raw).2 ∧
    (create_fact_check_embed raw claim).fields.head? =
      some ⟨"Rating".data,
        emojiFor (ratingAndColor raw).1 ++ ' ' :: (ratingAndColor raw).1, false⟩ := by
  unfold create_fact_check_embed addField
  dsimp only
  split_ifs <;> exact ⟨rfl, rfl⟩

/-- C6: the rating shown in the embed is exactly one of True, Partially
True, False, Unverifiable; `Unverifiable` is used when no rating can be
identified in the response; and the embed colour and the emoji of the
rating field are functions of that rating. -/
theorem C6_rating_classification (raw claim : List Char) :
    ((ratingAndColor raw).1 = "True".data ∨
     (ratingAndColor raw).1 = "Partially True".data ∨
     (ratingAndColor raw).1 = "False".data ∨
     (ratingAndColor raw).1 = "Unverifiable".data) ∧
    ((containsSeq "Rating:".data raw = false ∧ containsSeq "True".data raw = false ∧
      containsSeq "False".data raw = false) →
      (ratingAndColor raw).1 = "Unverifiable".data) ∧
    (create_fact_check_embed raw claim).color = colorForRating (ratingAndColor raw).1 ∧
    (create_fact_check_embed raw claim).fields.head? =
      some ⟨"Rating".data,
        emojiFor (ratingAndColor raw).1 ++ ' ' :: (ratingAndColor raw).1, false⟩ := by
  refine ⟨ratingAndColor_mem raw, fun h => ratingAndColor_default raw h.1 h.2.1 h.2.2, ?_,
    (create_embed_color_and_rating_field raw claim).2⟩
  rw [(create_embed_color_and_rating_field raw claim).1]
  exact ratingAndColor_color raw

/-- C6 witness: a concrete response with no identifiable rating is shown
as Unverifiable with the light-gray colour and the question-mark emoji. -/
theorem C6_rating_classification_witness :
    (ratingAndColor "no assessment given".data).1 = "Unverifiable".data ∧
    (create_fact_check_embed "no assessment given".data "c".data).color =
      colorForRating (ratingAndColor "no assessment given".data).1 :=
  ⟨(C6_rating_classification "no assessment given".data "c".data).2.1
      (by refine ⟨?_, ?_, ?_⟩ <;> decide),
   (C6_rating_classification "no assessment given".data "c".data).2.2.1⟩

end Sherlock

namespace Sherlock

/-! ### Claim C7: single best-effort scrape with fallback -/

/-- Updating one section body leaves the section names unchanged. -/
theorem updateSection_keys (ss : List (List Char × List Char)) (name add : List Char) :
    (updateSection ss name add).map Prod.fst = ss.map Prod.fst := by
  unfold updateSection
  rw [List.map_map]
  exact List.map_congr_left (fun p _ => by by_cases h : p.1 = name <;> simp [h])

/-- One parse step leaves the section names unchanged. -/
theorem lineStep_keys (st : PState) (line : List Char) :
    (lineStep st line).sections.map Prod.fst = st.sections.map Prod.fst := by
  unfold lineStep
  dsimp only
  by_cases h1 : pyStrip line = []
  · rw [if_pos h1]
  · rw [if_neg h1]
    rcases hh : headerOf (pyStrip line) with _ | n <;>
      rcases hc : st.current with _ | name <;>
        simp only [hh, hc] <;>
          first
          | rfl
          | (split_ifs <;> simp [updateSection_keys])

/-- The parsed sections carry exactly the five fixed names. -/
theorem parseSections_keys (raw : List Char) :
    (parseSections raw).map Prod.fst = SECTION_NAMES := by
  unfold parseSections
  have hfold : ∀ (lines : List (List Char)) (st : PState),
      ((lines.foldl lineStep st).sections.map Prod.fst) = st.sections.map Prod.fst := by
    intro lines
    induction lines with
    | nil => intro st; rfl
    | cons a t ih => intro st; rw [List.foldl_cons, ih, lineStep_keys]
  rw [hfold]
  show (initSections.map Prod.fst) = SECTION_NAMES
  unfold initSections
  rw [List.map_map]
  conv_rhs => rw [← List.map_id SECTION_NAMES]
  exact List.map_congr_left (fun n _ => rfl)

/-- Fields emitted for one section carry its name, plain or continued. -/
theorem sectionFieldsStep_names (acc : List EField) (p : List Char × List Char) :
    ∀ f ∈ sectionFieldsStep acc p,
      f ∈ acc ∨ f.name = p.1 ∨ f.name = p.1 ++ CONTINUED_SUFFIX := by
  intro f hf
  unfold sectionFieldsStep at hf
  split_ifs at hf with h
  · rcases List.mem_append.mp hf with h2 | h2
    · exact Or.inl h2
    · rcases List.mem_map.mp h2 with ⟨ic, _, rfl⟩
      by_cases h0 : ic.1 = 0 <;> simp [h0]
  · exact Or.inl hf

/-- Every section field carries one of the section names, plain or
continued. -/
theorem sectionFields_foldl_names (ss : List (List Char × List Char)) :
    ∀ (acc : List EField), ∀ f ∈ ss.foldl sectionFieldsStep acc,
      f ∈ acc ∨ ∃ n ∈ ss.map Prod.fst, f.name = n ∨ f.name = n ++ CONTINUED_SUFFIX := by
  induction ss with
  | nil => intro acc f hf; exact Or.inl hf
  | cons p t ih =>
    intro acc f hf
    rcases ih (sectionFieldsStep acc p) f hf with h | ⟨n, hn, h2⟩
    · rcases sectionFieldsStep_names acc p f h with h | h
      · exact Or.inl h
      · exact Or.inr ⟨p.1, List.mem_cons_self _ _, h⟩
    · exact Or.inr ⟨n, List.mem_cons_of_mem _ hn, h2⟩

/-- The embed built by `create_fact_check_embed` never carries the Snopes
reference field: that field is added only afterwards by `fact_check`. -/
theorem snopes_name_not_in_create (raw claim : List Char) :
    SNOPES_FIELD_NAME ∉ (create_fact_check_embed raw claim).fields.map EField.name := by
  intro hmem
  have hfields : (create_fact_check_embed raw claim).fields =
      ⟨"Rating".data, emojiFor (ratingAndColor raw).1 ++ ' ' :: (ratingAndColor raw).1,
        false⟩ :: sectionFields (parseSections raw) := by
    unfold create_fact_check_embed addField
    dsimp only
    split_ifs <;> rfl
  rw [hfields] at hmem
  rcases List.mem_map.mp hmem with ⟨f, hf, hname⟩
  rcases List.mem_cons.mp hf with rfl | hf2
  · dsimp only at hname
    exact absurd hname (by decide)
  · rcases sectionFields_foldl_names (parseSections raw) [] f hf2 with h | ⟨n, hn, h2⟩
    · simp at h
    · rw [parseSections_keys] at hn
      simp only [SECTION_NAMES, List.mem_cons, List.not_mem_nil, or_false] at hn
      rcases hn with rfl | rfl | rfl | rfl | rfl <;>
        rcases h2 with h2 | h2 <;> rw [h2] at hname <;> exact absurd hname (by decide)

/-- The absence marker occurs in the fallback notice. -/
theorem marker_in_fallback : containsSeq SNOPES_MARKER NO_SNOPES_NOTICE = true := by
  decide

/-- Whether the single scrape attempt raised (at either level). -/
def scrapeFailed : ScrapeOut → Bool
  | .found _ => false
  | .raisedInner => true
  | .raisedOuter => true

/-- C7: the scrape is attempted exactly once per fact check, with no
retry; when the attempt raises, the run still reaches the assessment LLM
call, uses the fixed fallback notice in place of the scrape result, and
produces the plain embed; and the Snopes reference field appears in a
produced embed only when the scrape actually returned a result. -/
theorem C7_single_scrape_best_effort (env : AgentEnv) (claim : List Char) :
    (fact_check env claim).1.count AEv.browserSearch = 1 ∧
    (scrapeFailed env.scrapeOut = true →
      AEv.llmAssess ∈ (fact_check env claim).1 ∧
      snopes_results_of env (clean_for_search (summarize_claim env.summarizeOut claim)) =
        NO_SNOPES_NOTICE ∧
      (∀ raw, env.assessOut = Except.ok raw →
        (fact_check env claim).2 = Except.ok (create_fact_check_embed raw claim))) ∧
    (∀ e, (fact_check env claim).2 = Except.ok e →
      SNOPES_FIELD_NAME ∈ e.fields.map EField.name →
      ∃ t, env.scrapeOut = ScrapeOut.found t) := by
  obtain ⟨so, sco, ao⟩ := env
  refine ⟨by rw [fact_check_trace]; decide, ?_, ?_⟩
  · intro hfail
    refine ⟨by rw [fact_check_trace]; decide, ?_, ?_⟩
    · cases sco with
      | found t => cases hfail
      | raisedInner => rfl
      | raisedOuter => rfl
    · intro raw hok
      cases hok
      cases sco with
      | found t => cases hfail
      | raisedInner =>
        unfold fact_check
        dsimp only
        rw [show snopes_results_of ⟨so, ScrapeOut.raisedInner, Except.ok raw⟩
          (clean_for_search (summarize_claim so claim)) = NO_SNOPES_NOTICE from rfl,
          if_pos marker_in_fallback]
      | raisedOuter =>
        unfold fact_check
        dsimp only
        rw [show snopes_results_of ⟨so, ScrapeOut.raisedOuter, Except.ok raw⟩
          (clean_for_search (summarize_claim so claim)) = NO_SNOPES_NOTICE from rfl,
          if_pos marker_in_fallback]
  · intro e hok hmem
    cases sco with
    | found t => exact ⟨t, rfl⟩
    | raisedInner =>
      exfalso
      cases ao with
      | error u =>
        unfold fact_check at hok
        dsimp only at hok
        cases hok
      | ok raw =>
        have he : e = create_fact_check_embed raw claim := by
          unfold fact_check at hok
          dsimp only at hok
          rw [show snopes_results_of ⟨so, ScrapeOut.raisedInner, Except.ok raw⟩
            (clean_for_search (summarize_claim so claim)) = NO_SNOPES_NOTICE from rfl,
            if_pos marker_in_fallback] at hok
          exact (Except.ok.inj hok).symm
        rw [he] at hmem
        exact snopes_name_not_in_create raw claim hmem
    | raisedOuter =>
      exfalso
      cases ao with
      | error u =>
        unfold fact_check at hok
        dsimp only at hok
        cases hok
      | ok raw =>
        have he : e = create_fact_check_embed raw claim := by
          unfold fact_check at hok
          dsimp only at hok
          rw [show snopes_results_of ⟨so, ScrapeOut.raisedOuter, Except.ok raw⟩
            (clean_for_search (summarize_claim so claim)) = NO_SNOPES_NOTICE from rfl,
            if_pos marker_in_fallback] at hok
          exact (Except.ok.inj hok).symm
        rw [he] at hmem
        exact snopes_name_not_in_create raw claim hmem

/-- A concrete environment whose scrape attempt raises but whose LLM calls
succeed. -/
def aenvScrapeFail : AgentEnv :=
  ⟨Except.ok "summary".data, ScrapeOut.raisedInner, Except.ok "Rating: True".data⟩

/-- C7 witness: on a concrete run with a failing scrape, the browser is
invoked exactly once and the assessment call is still reached. -/
theorem C7_single_scrape_best_effort_witness :
    (fact_check aenvScrapeFail "c".data).1.count AEv.browserSearch = 1 ∧
    AEv.llmAssess ∈ (fact_check aenvScrapeFail "c".data).1 :=
  ⟨(C7_single_scrape_best_effort aenvScrapeFail "c".data).1,
   ((C7_single_scrape_best_effort aenvScrapeFail "c".data).2.1 (by decide)).1⟩

end Sherlock
